import Mathlib

set_option maxHeartbeats 1000000

/-!
Verification of the image-to-GIF conversion plugin.

The command/orchestration layer (argument extraction, dimension
resolution, content-type checking, output file naming, lazy loading of
the encoder module) is embedded directly from `src/src/index.ts`.
The GIF codec itself (color quantization, LZW compression, GIF89a
framing) is delegated by the source to the external `gifenc` library,
so it is modelled from the specification (spec sections 4.1 to 4.5).
-/

/-! ## Data model -/

/-- An RGBA pixel as decoded from the source image (spec section 3, RawImage). -/
structure RGBA where
  r : ℕ
  g : ℕ
  b : ℕ
  a : ℕ
deriving DecidableEq, Repr

/-- A decoded raster image: dimensions plus pixel buffer (spec section 3, RawImage). -/
structure RawImage where
  width : ℕ
  height : ℕ
  pixels : List RGBA
deriving DecidableEq, Repr

/-- A palette entry: an RGB triple. -/
abbrev RGB := ℕ × ℕ × ℕ

/-! ## JavaScript numeric arguments

`execute` converts the optional width/height arguments with `Number(arg.value)`,
which may yield an ordinary number or NaN; an absent argument stays `undefined`.
The dimension branches of `convertImageToGif` test these values for JavaScript
truthiness (`if (width && height) ... else if (width) ...`). -/

/-- Result of `Number(arg.value)` for an optional argument: absent (`undefined`),
not a number (`NaN`), or a numeric value. -/
inductive JSNum where
  | undef : JSNum
  | nan : JSNum
  | num : ℚ → JSNum
deriving DecidableEq

/-- JavaScript truthiness of such a value: `undefined`, `NaN` and `0` are falsy. -/
def JSNum.truthy : JSNum → Bool
  | .num q => decide (q ≠ 0)
  | _ => false

/-- The numeric value (only meaningful when truthy). -/
def JSNum.val : JSNum → ℚ
  | .num q => q
  | _ => 0

/-- `Math.round` on an exact rational: round half away from zero toward positive
infinity, `⌊q + 1/2⌋`. -/
def roundHalf (q : ℚ) : ℚ := ((⌊q + 1/2⌋ : ℤ) : ℚ)

/-- Dimension resolution of `convertImageToGif` (src/src/index.ts lines 34-46 and
242-254): both truthy → use as-is; width only → height from aspect ratio; height
only → width from aspect ratio; neither → original dimensions. -/
def resolveDims (w0 h0 : ℚ) (width height : JSNum) : ℚ × ℚ :=
  if width.truthy && height.truthy then (width.val, height.val)
  else if width.truthy then (width.val, roundHalf (h0 / w0 * width.val))
  else if height.truthy then (roundHalf (w0 / h0 * height.val), height.val)
  else (w0, h0)

/-! ## ColorQuantizer

Modelled from the spec: the source delegates quantization to the external
`gifenc` library (`quantize`/`applyPalette`, src/src/index.ts lines 266-268);
spec section 4.1 specifies the uniform quantizer embedded here. -/

/-- Quantize one channel to 16 uniform buckets: `floor(channel/16)*16`. -/
def quantChannel (c : ℕ) : ℕ := c / 16 * 16

/-- Quantize a pixel: each of R, G, B independently; alpha is ignored. -/
def quantColor (p : RGBA) : RGB := (quantChannel p.r, quantChannel p.g, quantChannel p.b)

/-- Position of the first occurrence of an element in a list (used for both
the palette and the LZW code table). -/
def idxOf? {α : Type} [DecidableEq α] : List α → α → Option ℕ
  | [], _ => none
  | a :: t, c => if a = c then some 0 else (idxOf? t c).map (fun i => i + 1)

/-- One quantizer step (spec section 4.1): look the quantized color up in the
palette; if present use its index, if absent and the palette has room append it,
otherwise map to index 0 (overflow policy). -/
def palStep (pal : List RGB) (c : RGB) : List RGB × ℕ :=
  match idxOf? pal c with
  | some i => (pal, i)
  | none => if pal.length < 256 then (pal ++ [c], pal.length) else (pal, 0)

/-- Process all pixels, building the palette and the index buffer. -/
def quantLoop : List RGBA → List RGB → List RGB × List ℕ
  | [], pal => (pal, [])
  | p :: ps, pal =>
      ((quantLoop ps (palStep pal (quantColor p)).1).1,
       (palStep pal (quantColor p)).2 :: (quantLoop ps (palStep pal (quantColor p)).1).2)

/-- Modelled from the spec: `quantize(pixels) -> (Palette, IndexedImage)`
(spec section 4.1); the palette is padded with (0,0,0) to exactly 256 entries. -/
def quantize (pixels : List RGBA) : List RGB × List ℕ :=
  ((quantLoop pixels []).1 ++ List.replicate (256 - (quantLoop pixels []).1.length) ((0, 0, 0) : RGB),
   (quantLoop pixels []).2)

/-- First-seen-order deduplication of a color stream (used to state the palette
invariants of spec sections 3 and 4.1). -/
def firstSeenAcc (acc : List RGB) : List RGB → List RGB
  | [] => acc
  | c :: cs => firstSeenAcc (if c ∈ acc then acc else acc ++ [c]) cs

/-- Distinct colors of a stream, in first-seen order. -/
def firstSeen (cs : List RGB) : List RGB := firstSeenAcc [] cs

/-! ## BitPacker

Modelled from the spec: spec section 4.2, variable-width codes packed
least-significant-bit first into bytes, final byte zero-padded. -/

/-- The low `w` bits of `v`, least significant first. -/
def codeBits : ℕ → ℕ → List Bool
  | _, 0 => []
  | v, w + 1 => (decide (v % 2 = 1)) :: codeBits (v / 2) w

/-- Value of a bit string, least significant bit first. -/
def bitsToNat (l : List Bool) : ℕ :=
  l.foldr (fun b acc => (if b then 1 else 0) + 2 * acc) 0

/-- Emit every `(value, width)` code as `width` bits, LSB first. -/
def packBits (codes : List (ℕ × ℕ)) : List Bool :=
  codes.flatMap (fun cw => codeBits cw.1 cw.2)

/-- Group a bit stream into bytes of 8 bits each (the stream is pre-padded). -/
def chunk8 : List Bool → List ℕ
  | [] => []
  | b :: rest => bitsToNat (List.take 8 (b :: rest)) :: chunk8 (List.drop 8 (b :: rest))
  termination_by l => l.length
  decreasing_by simp [List.length_drop]; omega

/-- Zero bits needed to complete the final byte. -/
def padLen (n : ℕ) : ℕ := (8 - n % 8) % 8

/-- Pack a bit stream into bytes, zero-padding the final byte (spec section 4.2). -/
def bytesOfBits (bits : List Bool) : List ℕ :=
  chunk8 (bits ++ List.replicate (padLen bits.length) false)

/-- The bits of one byte, least significant first. -/
def byteBits (b : ℕ) : List Bool := codeBits b 8

/-- The bit stream carried by a byte sequence. -/
def bitsOfBytes (bs : List ℕ) : List Bool := bs.flatMap byteBits

/-! ## LzwEncoder

Modelled from the spec: the source obtains the LZW encoder from the external
`gifenc` library (src/src/index.ts lines 203-216, 256, 270-276); spec
section 4.3 specifies the GIF-variant LZW encoder embedded here. The code
table is represented by the list of inserted multi-symbol sequences: the
sequence at position `i` has code `2^minCodeSize + 2 + i`, single indices
`k` have code `k`, `clearCode = 2^minCodeSize`, `endCode = clearCode + 1`. -/

/-- Code of a sequence in the current table: a single index is its own code,
an inserted sequence gets `2^mcs + 2 +` its position. -/
def lookupC (mcs : ℕ) (tbl : List (List ℕ)) (s : List ℕ) : Option ℕ :=
  match s with
  | [k] => some k
  | _ => (idxOf? tbl s).map (fun i => 2 ^ mcs + 2 + i)

/-- Current encoder code width: starts at `mcs + 1`, grows by one whenever the
table size crosses a power-of-two boundary, capped at 12 bits. `L` is the
number of inserted multi-symbol entries, so the next free code is
`2^mcs + 2 + L`. -/
def encWidth (mcs L : ℕ) : ℕ := min 12 (Nat.size (2 ^ mcs + 1 + L))

/-- The LZW encoding loop (spec section 4.3): maintain the longest match; on a
miss emit the match code, insert the extended sequence, restart from the
current index; when the table reaches 4096 entries emit `clearCode` and reset;
at input exhaustion emit the final match code and `endCode`. Produces
`(code, width)` pairs. -/
def encLoop (mcs : ℕ) : List ℕ → List (List ℕ) → List ℕ → List (ℕ × ℕ)
  | [], tbl, m =>
      (if m.isEmpty then [] else [((lookupC mcs tbl m).getD 0, encWidth mcs tbl.length)])
        ++ [(2 ^ mcs + 1, encWidth mcs tbl.length)]
  | k :: ks, tbl, m =>
      if m.isEmpty then encLoop mcs ks tbl [k]
      else if (lookupC mcs tbl (m ++ [k])).isSome then encLoop mcs ks tbl (m ++ [k])
      else if 2 ^ mcs + 2 + (tbl.length + 1) = 4096 then
        ((lookupC mcs tbl m).getD 0, encWidth mcs tbl.length)
          :: (2 ^ mcs, encWidth mcs (tbl.length + 1)) :: encLoop mcs ks [] [k]
      else
        ((lookupC mcs tbl m).getD 0, encWidth mcs tbl.length)
          :: encLoop mcs ks (tbl ++ [m ++ [k]]) [k]

/-- Modelled from the spec: `encode(indices, minCodeSize)` (spec section 4.3):
emit `clearCode` first, then run the LZW loop. -/
def lzwEncode (mcs : ℕ) (indices : List ℕ) : List (ℕ × ℕ) :=
  (2 ^ mcs, encWidth mcs 0) :: encLoop mcs indices [] []

/-! ## Sub-block framing (spec section 4.4 item 7) -/

/-- Chunk a byte stream into length-prefixed sub-blocks of at most 255 bytes,
terminated by a zero-length block. -/
def blockify : List ℕ → List ℕ
  | [] => [0]
  | b :: rest =>
      (List.take 255 (b :: rest)).length
        :: (List.take 255 (b :: rest) ++ blockify (List.drop 255 (b :: rest)))
  termination_by l => l.length
  decreasing_by simp [List.length_drop]; omega

/-! ## GifWriter

Modelled from the spec: the byte-exact GIF89a layout of spec section 4.4; in
the source this serialization happens inside `gifenc`
(`gif.writeFrame`/`gif.finish`/`gif.bytesView`, src/src/index.ts lines 270-278). -/

/-- A 16-bit little-endian quantity. -/
def u16le (n : ℕ) : List ℕ := [n % 256, n / 256 % 256]

/-- Signature bytes: the ASCII string GIF89a. -/
def gifHeaderBytes : List ℕ := [0x47, 0x49, 0x46, 0x38, 0x39, 0x61]

/-- Logical Screen Descriptor: dimensions, packed flags (global color table
present, color resolution 7, size code 7 → 256 entries = 0xF7), background
index 0, aspect ratio 0. -/
def logicalScreenDescriptor (w h : ℕ) : List ℕ := u16le w ++ u16le h ++ [0xF7, 0, 0]

/-- Global Color Table: 256 × 3 bytes, palette entries in order. -/
def gctBytes (pal : List RGB) : List ℕ := pal.flatMap (fun c => [c.1, c.2.1, c.2.2])

/-- Graphics Control Extension: introducer 0x21 0xF9, size 4, flags (disposal 0,
no user input, transparency on as configured by `writeFrame`), delay 0,
transparent index 0, terminator. -/
def graphicsControlExt : List ℕ := [0x21, 0xF9, 0x04, 0x01, 0, 0, 0, 0]

/-- Image Descriptor: introducer 0x2C, position (0,0), dimensions, flags 0. -/
def imageDescriptor (w h : ℕ) : List ℕ :=
  0x2C :: (u16le 0 ++ u16le 0 ++ u16le w ++ u16le h ++ [0])

/-- Modelled from the spec: `write(image, palette)` (spec section 4.4):
signature, descriptors, 256-entry color table, control block, minimum code
size byte 8, LZW data in sub-blocks, trailer 0x3B. -/
def gifWrite (w h : ℕ) (pal : List RGB) (idx : List ℕ) : List ℕ :=
  gifHeaderBytes ++ logicalScreenDescriptor w h ++ gctBytes pal ++ graphicsControlExt
    ++ imageDescriptor w h ++ [8]
    ++ blockify (bytesOfBits (packBits (lzwEncode 8 idx))) ++ [0x3B]

/-! ## ConversionPipeline -/

/-- The conversion pipeline `convertImageToGif` (src/src/index.ts lines 234-281):
resolve target dimensions, resample via the external canvas draw, quantize,
and write the GIF byte stream. `resample` abstracts the externally-owned
decode-and-redraw step (spec section 1). -/
def resampledFrame (resample : RawImage → ℚ → ℚ → RawImage) (img : RawImage)
    (width height : JSNum) : RawImage :=
  resample img (resolveDims (img.width : ℚ) (img.height : ℚ) width height).1
    (resolveDims (img.width : ℚ) (img.height : ℚ) width height).2

/-- The conversion `convertImageToGif` itself: quantize the resampled frame and
write the GIF byte stream. -/
def convertImageToGif (resample : RawImage → ℚ → ℚ → RawImage) (img : RawImage)
    (width height : JSNum) : List ℕ :=
  gifWrite (resampledFrame resample img width height).width
    (resampledFrame resample img width height).height
    (quantize (resampledFrame resample img width height).pixels).1
    (quantize (resampledFrame resample img width height).pixels).2

/-! ## A standard GIF LZW decoder

Used to state the round-trip property (spec section 8): the produced image
data, decoded with a standard GIF LZW decoder using the embedded minimum code
size, must reproduce the quantizer's index buffer. The decoder keeps the list
of dictionary entries added after the implicit single-index entries
(code `2^mcs + 2 + position`), the previously decoded sequence, and derives
the current code width from the dictionary size (growing at power-of-two
boundaries, capped at 12 bits). -/

/-- Decoder code width given the number of inserted dictionary entries. -/
def decWidth (mcs L : ℕ) : ℕ := min 12 (Nat.size (2 ^ mcs + 2 + L))

/-- The sequence denoted by code `c`: a literal below `clearCode`, a dictionary
entry, or (first-unassigned-code case) the previous sequence extended by its
own first symbol. -/
def decSeq (mcs : ℕ) (dtbl : List (List ℕ)) (p : List ℕ) (c : ℕ) : Option (List ℕ) :=
  if c < 2 ^ mcs then some [c]
  else if c - (2 ^ mcs + 2) < dtbl.length then dtbl[c - (2 ^ mcs + 2)]?
  else if c = 2 ^ mcs + 2 + dtbl.length then some (p ++ [p.headD 0])
  else none

/-- The main decode loop over the packed bit stream. Reading past the end of
the data (possible only for the final `endCode`, whose value is unaffected by
the implicit zero padding) yields the output accumulated so far, as a standard
reader does at end of stream. -/
def decLoop (mcs : ℕ) : List (List ℕ) → Option (List ℕ) → List Bool → List ℕ → Option (List ℕ)
  | _, _, [], acc => some acc
  | dtbl, prev, b :: bs, acc =>
      if bitsToNat (List.take (decWidth mcs dtbl.length) (b :: bs)) = 2 ^ mcs then
        decLoop mcs [] none (List.drop (decWidth mcs dtbl.length) (b :: bs)) acc
      else if bitsToNat (List.take (decWidth mcs dtbl.length) (b :: bs)) = 2 ^ mcs + 1 then
        some acc
      else
        match prev with
        | none =>
            if bitsToNat (List.take (decWidth mcs dtbl.length) (b :: bs)) < 2 ^ mcs then
              decLoop mcs dtbl
                (some [bitsToNat (List.take (decWidth mcs dtbl.length) (b :: bs))])
                (List.drop (decWidth mcs dtbl.length) (b :: bs))
                (acc ++ [bitsToNat (List.take (decWidth mcs dtbl.length) (b :: bs))])
            else none
        | some p =>
            match decSeq mcs dtbl p (bitsToNat (List.take (decWidth mcs dtbl.length) (b :: bs))) with
            | none => none
            | some s =>
                decLoop mcs
                  (if 2 ^ mcs + 2 + dtbl.length < 4096 then dtbl ++ [p ++ [s.headD 0]] else dtbl)
                  (some s)
                  (List.drop (decWidth mcs dtbl.length) (b :: bs))
                  (acc ++ s)
  termination_by _ _ bits _ => bits.length
  decreasing_by
    all_goals
      have h1 : 0 < Nat.size (2 ^ mcs + 2 + dtbl.length) :=
        Nat.size_pos.2 (by positivity)
      have h2 : 0 < decWidth mcs dtbl.length := by
        simp only [decWidth]
        omega
      simp only [List.length_drop, List.length_cons]
      omega

/-- Undo the sub-block framing: concatenate the length-prefixed sub-blocks up
to the zero-length terminator, ignoring anything after it. -/
def deblock : List ℕ → Option (List ℕ)
  | [] => none
  | 0 :: _ => some []
  | (n + 1) :: rest =>
      if rest.length < n + 1 then none
      else
        match deblock (List.drop (n + 1) rest) with
        | none => none
        | some more => some (List.take (n + 1) rest ++ more)
  termination_by l => l.length
  decreasing_by simp [List.length_drop]; omega

/-- Decode the image data of a produced GIF file: read the minimum code size
byte at its fixed offset (799 = 6 signature + 7 screen descriptor + 768 color
table + 8 control extension + 10 image descriptor), undo the sub-block
framing, and run the standard LZW decoder with that code size. -/
def decodeGifImageData (file : List ℕ) : Option (List ℕ) :=
  match List.drop 799 file with
  | [] => none
  | mcs :: rest =>
      match deblock rest with
      | none => none
      | some payload => decLoop mcs [] none (bitsOfBytes payload) []

/-! ## Output file naming (src/src/index.ts lines 66-67 and 277-278)

`imageFile.name ? imageFile.name.replace(/\.[^/.]+$/, "") : "converted"`:
an empty name falls back to "converted"; otherwise the regex removes a final
dot followed by one or more characters none of which is a dot or a slash. -/

/-- Strip the final dot-extension, as the regex replace does: working from the
end, the characters after the last dot must be nonempty and contain no slash
(they can contain no dot, being after the last one); otherwise the name is
unchanged. -/
def stripExt (s : List Char) : List Char :=
  match List.drop (List.takeWhile (fun c => c ≠ '.') s.reverse).length s.reverse with
  | [] => s
  | _ :: base =>
      if (List.takeWhile (fun c => c ≠ '.') s.reverse) ≠ []
          ∧ '/' ∉ (List.takeWhile (fun c => c ≠ '.') s.reverse) then
        base.reverse
      else s

/-- The output base name: "converted" for an empty input name (empty strings
are falsy), otherwise the input name with its extension stripped. -/
def outputBaseName (name : List Char) : List Char :=
  if name = [] then String.data "converted" else stripExt name

/-- Variant B appends ".gif" to the base name. -/
def outputNameGif (name : List Char) : List Char := outputBaseName name ++ String.data ".gif"

/-- Variant A appends ".png" to the base name. -/
def outputNamePng (name : List Char) : List Char := outputBaseName name ++ String.data ".png"

/-! ## Lazy loading of the gifenc module (src/src/index.ts lines 203-216) -/

/-- The handles obtained from the dynamically imported gifenc module. -/
structure GifencModule where
  gifEncoderHandle : ℕ
  quantizeHandle : ℕ
  applyPaletteHandle : ℕ
deriving DecidableEq, Repr

/-- One call of `loadGifEncoder`, as a transition on the module-level cache
(the `GIFEncoder` variable): if the cache is filled, return at once; otherwise
perform the dynamic import (its result is the parameter: `some` handles, or
`none` for a failed import, which leaves the cache empty and throws). The
boolean records whether this call performed the dynamic import. -/
def loadGifEncoder (cache : Option GifencModule) (importResult : Option GifencModule) :
    Option GifencModule × Bool :=
  match cache with
  | some m => (some m, false)
  | none => (importResult, true)

/-! ## The command execute handler (src/src/index.ts lines 314-390)

The observable effects of one `execute` call, given the fetched attachment.
The fetch result is abstracted as the blob content type together with the
outcome of the externally-owned image decode (`loadImage`): `none` means the
decode rejected (malformed bytes), which the `try/catch` turns into an error
message. -/

/-- Messages the handler can send. -/
inductive MessageKind where
  | noImage : MessageKind
  | processing : MessageKind
  | notAnImage : MessageKind
  | errorCaught : MessageKind
deriving DecidableEq, Repr

/-- Observable actions of one `execute` call. -/
inductive CommandAction where
  | message : MessageKind → CommandAction
  | uploadGif : List ℕ → CommandAction
deriving DecidableEq, Repr

/-- The fetched attachment: blob content type and decode outcome. -/
structure FetchedAttachment where
  contentType : List Char
  decoded : Option RawImage
deriving DecidableEq, Repr

/-- `file.type.startsWith("image/")`. -/
def isImageContentType (ct : List Char) : Bool := (String.data "image/").isPrefixOf ct

/-- The `execute` handler: no attachment → error message; otherwise send the
processing message, reject non-image content types, turn a decode failure into
a caught-error message, and otherwise convert and upload the GIF. -/
def executeCommand (resample : RawImage → ℚ → ℚ → RawImage)
    (attachment : Option FetchedAttachment) (width height : JSNum) : List CommandAction :=
  match attachment with
  | none => [.message .noImage]
  | some att =>
      .message .processing ::
        (if ¬ isImageContentType att.contentType then [.message .notAnImage]
         else
           match att.decoded with
           | none => [.message .errorCaught]
           | some img => [.uploadGif (convertImageToGif resample img width height)])

/-! # Theorems -/

/-! ## C3 and C9: dimension resolution -/

/-- C3: for a source of size (W0, H0), both targets given are used as-is; width
alone gives height `round(W * H0 / W0)`; height alone gives width
`round(H * W0 / H0)`; neither given keeps the original dimensions; and
width=100 alone on a 200 by 50 source yields output height 25. -/
theorem resolveDims_policy (w0 h0 W H : ℚ) (hw0 : 0 < w0) (hh0 : 0 < h0)
    (hW : 0 < W) (hH : 0 < H) :
    resolveDims w0 h0 (.num W) (.num H) = (W, H)
    ∧ resolveDims w0 h0 (.num W) .undef = (W, roundHalf (W * h0 / w0))
    ∧ resolveDims w0 h0 .undef (.num H) = (roundHalf (H * w0 / h0), H)
    ∧ resolveDims w0 h0 .undef .undef = (w0, h0)
    ∧ resolveDims 200 50 (.num 100) .undef = (100, 25) := by
  have hW' : W ≠ 0 := ne_of_gt hW
  have hH' : H ≠ 0 := ne_of_gt hH
  refine ⟨?_, ?_, ?_, ?_, ?_⟩
  · simp [resolveDims, JSNum.truthy, JSNum.val, hW', hH']
  · simp only [resolveDims, JSNum.truthy, JSNum.val]
    simp [hW']
    congr 1
    ring
  · simp only [resolveDims, JSNum.truthy, JSNum.val]
    simp [hH']
    congr 1
    ring
  · simp [resolveDims, JSNum.truthy]
  · simp only [resolveDims, JSNum.truthy, JSNum.val]
    norm_num
    rw [roundHalf, show (25 : ℚ) + 1/2 = 51/2 by norm_num]
    rw [show ⌊(51 / 2 : ℚ)⌋ = 25 from Int.floor_eq_iff.2 (by norm_num)]
    norm_num

/-- Witness for C3 at the concrete scenario from the spec. -/
theorem resolveDims_policy_witness :
    (0 : ℚ) < 200 ∧ resolveDims 200 50 (.num 100) .undef = (100, 25) :=
  ⟨by norm_num,
   (resolveDims_policy 200 50 100 7 (by norm_num) (by norm_num) (by norm_num)
       (by norm_num)).2.2.2.2⟩

/-- C9: a width or height argument equal to 0 or NaN is treated exactly as an
absent argument by every branch of the dimension resolution, because each
branch tests JavaScript truthiness. -/
theorem falsy_dimension_args (w0 h0 : ℚ) (t : JSNum) :
    resolveDims w0 h0 (.num 0) t = resolveDims w0 h0 .undef t
    ∧ resolveDims w0 h0 .nan t = resolveDims w0 h0 .undef t
    ∧ resolveDims w0 h0 t (.num 0) = resolveDims w0 h0 t .undef
    ∧ resolveDims w0 h0 t .nan = resolveDims w0 h0 t .undef := by
  refine ⟨?_, ?_, ?_, ?_⟩ <;> simp [resolveDims, JSNum.truthy]

/-! ## C8: lazy loading of the encoder module -/

/-- C8: after one successful load has filled the cache, every later call
returns the cached handles without performing the dynamic import again, so all
later conversions use the same handles. -/
theorem loadGifEncoder_idempotent (m : GifencModule) (r r2 : Option GifencModule) :
    loadGifEncoder (some m) r = (some m, false)
    ∧ loadGifEncoder (loadGifEncoder (some m) r).1 r2 = (some m, false) := by
  exact ⟨rfl, rfl⟩

/-! ## C6: determinism -/

/-- C6: converting the same decoded pixel data with the same target dimensions
twice yields byte-identical output: the pipeline is a pure function of the
image fields and the targets. -/
theorem conversion_deterministic (resample : RawImage → ℚ → ℚ → RawImage)
    (img1 img2 : RawImage) (w h : JSNum)
    (hw : img1.width = img2.width) (hh : img1.height = img2.height)
    (hp : img1.pixels = img2.pixels) :
    convertImageToGif resample img1 w h = convertImageToGif resample img2 w h := by
  cases img1
  cases img2
  simp only at hw hh hp
  subst hw
  subst hh
  subst hp
  rfl

/-- Witness for C6 on a concrete one-pixel image. -/
theorem conversion_deterministic_witness :
    convertImageToGif (fun i _ _ => i) ⟨1, 1, [⟨255, 0, 0, 255⟩]⟩ .undef .undef
      = convertImageToGif (fun i _ _ => i) ⟨1, 1, [⟨255, 0, 0, 255⟩]⟩ .undef .undef :=
  conversion_deterministic (fun i _ _ => i) ⟨1, 1, [⟨255, 0, 0, 255⟩]⟩
    ⟨1, 1, [⟨255, 0, 0, 255⟩]⟩ .undef .undef rfl rfl rfl

/-! ## C1: signature and trailer -/

/-- C1: for every input, the produced byte stream begins with the six bytes
GIF89a and ends with the single trailer byte 0x3B. -/
theorem gif_signature_and_trailer (resample : RawImage → ℚ → ℚ → RawImage)
    (img : RawImage) (w h : JSNum) :
    List.take 6 (convertImageToGif resample img w h) = [0x47, 0x49, 0x46, 0x38, 0x39, 0x61]
    ∧ (convertImageToGif resample img w h).getLast? = some 0x3B := by
  constructor
  · rw [convertImageToGif, gifWrite]
    simp only [List.append_assoc]
    have h6 : gifHeaderBytes.length = 6 := rfl
    rw [← h6, List.take_left]
    rfl
  · rw [convertImageToGif, gifWrite]
    exact List.getLast?_concat _

/-! ## C7: non-image or malformed sources produce no GIF -/

/-- C7: when the fetched bytes are not an image, either because the content
type is not `image/...` or because the external decode rejects them, the
handler surfaces an error message and never reaches the upload: no GIF bytes
are produced. -/
theorem decode_failure_no_upload (resample : RawImage → ℚ → ℚ → RawImage)
    (att : FetchedAttachment) (w h : JSNum)
    (hfail : isImageContentType att.contentType = false ∨ att.decoded = none) :
    (executeCommand resample (some att) w h
        = [.message .processing, .message .notAnImage]
      ∨ executeCommand resample (some att) w h
        = [.message .processing, .message .errorCaught])
    ∧ ∀ bytes, CommandAction.uploadGif bytes ∉ executeCommand resample (some att) w h := by
  have htrace : executeCommand resample (some att) w h
      = [.message .processing, .message .notAnImage]
      ∨ executeCommand resample (some att) w h
      = [.message .processing, .message .errorCaught] := by
    rcases hfail with hct | hdec
    · left
      simp [executeCommand, hct]
    · by_cases hct : isImageContentType att.contentType
      · right
        simp [executeCommand, hct, hdec]
      · left
        simp [executeCommand, hct]
  refine ⟨htrace, ?_⟩
  intro bytes
  rcases htrace with h1 | h1 <;> rw [h1] <;> simp

/-- Witness for C7: a text attachment is rejected and nothing is uploaded. -/
theorem decode_failure_no_upload_witness :
    CommandAction.uploadGif []
      ∉ executeCommand (fun i _ _ => i) (some ⟨String.data "text/html", none⟩) .undef .undef :=
  (decode_failure_no_upload (fun i _ _ => i) ⟨String.data "text/html", none⟩ .undef .undef
      (Or.inl (by decide))).2 []

/-! ## C10: output file naming -/

/-- Auxiliary: takeWhile stops exactly at the first failing element. -/
theorem takeWhile_append_cons (p : Char → Bool) (l1 : List Char) (x : Char) (l2 : List Char)
    (h1 : ∀ a ∈ l1, p a = true) (hx : p x = false) :
    List.takeWhile p (l1 ++ x :: l2) = l1 := by
  induction l1 with
  | nil => simp [List.takeWhile_cons, hx]
  | cons a t ih =>
      have ha : p a = true := h1 a (by simp)
      simp only [List.cons_append, List.takeWhile_cons, ha, if_pos]
      rw [ih (fun b hb => h1 b (by simp [hb]))]

/-- C10: the output file name is the input name with its final dot-extension
removed and the output extension appended (".gif" in variant B, ".png" in
variant A); an empty input name uses the base name "converted"; a name without
a dot is kept whole. -/
theorem output_file_naming (base ext name : List Char)
    (hne : ext ≠ []) (hdot : '.' ∉ ext) (hsl : '/' ∉ ext)
    (hnd : '.' ∉ name) (hname : name ≠ []) :
    outputNameGif (base ++ '.' :: ext) = base ++ String.data ".gif"
    ∧ outputNamePng (base ++ '.' :: ext) = base ++ String.data ".png"
    ∧ outputNameGif name = name ++ String.data ".gif"
    ∧ outputNameGif [] = String.data "converted.gif"
    ∧ outputNamePng [] = String.data "converted.png" := by
  have hstrip : stripExt (base ++ '.' :: ext) = base := by
    have hrev : (base ++ '.' :: ext).reverse = ext.reverse ++ '.' :: base.reverse := by
      simp [List.reverse_append]
    have htw : List.takeWhile (fun c => decide (c ≠ '.')) (ext.reverse ++ '.' :: base.reverse)
        = ext.reverse := by
      refine takeWhile_append_cons _ _ _ _ (fun a ha => ?_) (by simp)
      have : a ∈ ext := List.mem_reverse.1 ha
      simp [decide_eq_true_eq]
      exact fun hcontra => hdot (hcontra ▸ this)
    simp only [stripExt, hrev, htw, List.drop_left]
    have hcond : ext.reverse ≠ [] ∧ '/' ∉ ext.reverse := by
      constructor
      · simpa using hne
      · simpa using hsl
    simp [hcond.1, hcond.2]
  have hkeep : stripExt name = name := by
    have htw : List.takeWhile (fun c => decide (c ≠ '.')) name.reverse = name.reverse := by
      refine List.takeWhile_eq_self_iff.2 (fun a ha => ?_)
      have : a ∈ name := List.mem_reverse.1 ha
      simp [decide_eq_true_eq]
      exact fun hcontra => hnd (hcontra ▸ this)
    simp only [stripExt, htw, List.drop_length]
  have hbne : base ++ '.' :: ext ≠ [] := by simp
  refine ⟨?_, ?_, ?_, ?_, ?_⟩
  · simp [outputNameGif, outputBaseName, hbne, hstrip]
  · simp [outputNamePng, outputBaseName, hbne, hstrip]
  · simp [outputNameGif, outputBaseName, hname, hkeep]
  · rfl
  · rfl

/-- Witness for C10 on a concrete name with an extension and one without. -/
theorem output_file_naming_witness :
    outputNameGif (String.data "photo" ++ '.' :: String.data "jpg")
      = String.data "photo" ++ String.data ".gif" :=
  (output_file_naming (String.data "photo") (String.data "jpg") (String.data "noext")
      (by decide) (by decide) (by decide) (by decide) (by decide)).1

/-! ## C4 and C5: the quantizer invariants -/

/-- Auxiliary: the palette search fails exactly for absent colors. -/
theorem idxOf?_eq_none_iff {α : Type} [DecidableEq α] (l : List α) (c : α) :
    idxOf? l c = none ↔ c ∉ l := by
  induction l with
  | nil => simp [idxOf?]
  | cons a t ih =>
      by_cases ha : a = c
      · simp [idxOf?, ha]
      · have ha2 : ¬ c = a := fun h => ha h.symm
        simp [idxOf?, ha, ha2, ih]

/-- Auxiliary: a successful palette search is unaffected by appended entries. -/
theorem idxOf?_append_some {α : Type} [DecidableEq α] (l1 l2 : List α) (c : α) (i : ℕ)
    (h : idxOf? l1 c = some i) : idxOf? (l1 ++ l2) c = some i := by
  induction l1 generalizing i with
  | nil => cases h
  | cons a t ih =>
      rw [List.cons_append]
      rw [idxOf?] at h ⊢
      by_cases ha : a = c
      · simpa [ha] using h
      · simp only [ha, if_neg, if_false] at h ⊢
        rcases hfind : idxOf? t c with _ | j
        · rw [hfind] at h
          cases h
        · rw [hfind] at h
          rw [ih j hfind]
          exact h

/-- Auxiliary: a failed palette search continues past the searched entries. -/
theorem idxOf?_append_none {α : Type} [DecidableEq α] (l1 l2 : List α) (c : α)
    (h : idxOf? l1 c = none) :
    idxOf? (l1 ++ l2) c = (idxOf? l2 c).map (fun i => i + l1.length) := by
  induction l1 with
  | nil => simp
  | cons a t ih =>
      rw [List.cons_append]
      rw [idxOf?] at h
      rw [idxOf?]
      by_cases ha : a = c
      · simp [ha] at h
      · simp only [ha, if_neg, if_false] at h ⊢
        have hfind : idxOf? t c = none := by
          rcases hq : idxOf? t c with _ | j
          · rfl
          · rw [hq] at h
            cases h
        rw [ih hfind]
        rcases idxOf? l2 c with _ | k
        · rfl
        · simp [Function.comp, Nat.add_assoc]

/-- Auxiliary: one quantizer step never shrinks the palette nor exceeds 256. -/
theorem palStep_length_le (pal : List RGB) (c : RGB) (h : pal.length ≤ 256) :
    (palStep pal c).1.length ≤ 256 := by
  rcases hfind : idxOf? pal c with _ | i
  · rw [palStep, hfind]
    by_cases h256 : pal.length < 256
    · simp only [h256, if_pos, List.length_append, List.length_cons, List.length_nil]
      omega
    · simp only [h256, if_neg, if_false]
      exact h
  · simp only [palStep, hfind]
    exact h

/-- Auxiliary: a full palette is never modified again. -/
theorem quantLoop_full_stable (ps : List RGBA) (pal : List RGB) (h : 256 ≤ pal.length) :
    (quantLoop ps pal).1 = pal := by
  induction ps generalizing pal with
  | nil => rfl
  | cons p t ih =>
      have hstep : (palStep pal (quantColor p)).1 = pal := by
        rcases hfind : idxOf? pal (quantColor p) with _ | i
        · simp [palStep, hfind, Nat.not_lt.2 h]
        · simp [palStep, hfind]
      rw [quantLoop, hstep, ih pal h]

/-- Auxiliary: the palette only grows by appending. -/
theorem quantLoop_fst_append (ps : List RGBA) (pal : List RGB) :
    ∃ ext, (quantLoop ps pal).1 = pal ++ ext := by
  induction ps generalizing pal with
  | nil => exact ⟨[], by simp [quantLoop]⟩
  | cons p t ih =>
      have hstep : ∃ e1, (palStep pal (quantColor p)).1 = pal ++ e1 := by
        rcases hfind : idxOf? pal (quantColor p) with _ | i
        · by_cases h256 : pal.length < 256
          · exact ⟨[quantColor p], by simp [palStep, hfind, h256]⟩
          · exact ⟨[], by simp [palStep, hfind, h256]⟩
        · exact ⟨[], by simp [palStep, hfind]⟩
      obtain ⟨e1, he1⟩ := hstep
      obtain ⟨e2, he2⟩ := ih ((palStep pal (quantColor p)).1)
      refine ⟨e1 ++ e2, ?_⟩
      rw [quantLoop, he2, he1, List.append_assoc]

/-- Auxiliary: each produced index is the position of the pixel's quantized
color in the final (unpadded) palette, defaulting to 0 for overflow colors. -/
theorem quantLoop_idx_spec (ps : List RGBA) (pal : List RGB) (hlen : pal.length ≤ 256) :
    (quantLoop ps pal).2
      = ps.map (fun p => (idxOf? (quantLoop ps pal).1 (quantColor p)).getD 0) := by
  induction ps generalizing pal with
  | nil => rfl
  | cons p t ih =>
      have hfst : (quantLoop (p :: t) pal).1 = (quantLoop t (palStep pal (quantColor p)).1).1 := rfl
      have hsnd : (quantLoop (p :: t) pal).2
          = (palStep pal (quantColor p)).2 :: (quantLoop t (palStep pal (quantColor p)).1).2 := rfl
      rw [hsnd, List.map_cons, hfst]
      have htail := ih ((palStep pal (quantColor p)).1) (palStep_length_le pal (quantColor p) hlen)
      rw [htail]
      congr 1
      rcases hfind : idxOf? pal (quantColor p) with _ | i
      · by_cases h256 : pal.length < 256
        · have hstep1 : (palStep pal (quantColor p)).1 = pal ++ [quantColor p] := by
            simp [palStep, hfind, h256]
          have hstep2 : (palStep pal (quantColor p)).2 = pal.length := by
            simp [palStep, hfind, h256]
          obtain ⟨ext, hext⟩ := quantLoop_fst_append t ((palStep pal (quantColor p)).1)
          rw [hstep2, hext, hstep1, List.append_assoc]
          rw [idxOf?_append_none pal ([quantColor p] ++ ext) (quantColor p) hfind]
          simp [idxOf?]
        · have h256' : 256 ≤ pal.length := Nat.not_lt.1 h256
          have hstep1 : (palStep pal (quantColor p)).1 = pal := by
            simp [palStep, hfind, h256]
          have hstep2 : (palStep pal (quantColor p)).2 = 0 := by
            simp [palStep, hfind, h256]
          rw [hstep2, hstep1, quantLoop_full_stable t pal h256', hfind]
          rfl
      · have hstep1 : (palStep pal (quantColor p)).1 = pal := by
          simp [palStep, hfind]
        have hstep2 : (palStep pal (quantColor p)).2 = i := by
          simp [palStep, hfind]
        obtain ⟨ext, hext⟩ := quantLoop_fst_append t ((palStep pal (quantColor p)).1)
        rw [hstep2, hext, hstep1]
        rw [idxOf?_append_some pal ext (quantColor p) i hfind]
        rfl

/-- Auxiliary: the palette built by the quantizer is the first 256 colors of
the first-seen deduplication of the quantized pixel stream. -/
theorem quantLoop_pal_firstSeen (ps : List RGBA) (acc : List RGB) :
    (quantLoop ps (List.take 256 acc)).1
      = List.take 256 (firstSeenAcc acc (ps.map quantColor)) := by
  induction ps generalizing acc with
  | nil => rfl
  | cons p t ih =>
      have hfst : (quantLoop (p :: t) (List.take 256 acc)).1
          = (quantLoop t (palStep (List.take 256 acc) (quantColor p)).1).1 := rfl
      have hacc : firstSeenAcc acc ((p :: t).map quantColor)
          = firstSeenAcc (if quantColor p ∈ acc then acc else acc ++ [quantColor p])
              (t.map quantColor) := rfl
      rw [hfst, hacc]
      have hstep : (palStep (List.take 256 acc) (quantColor p)).1
          = List.take 256 (if quantColor p ∈ acc then acc else acc ++ [quantColor p]) := by
        by_cases hc : quantColor p ∈ List.take 256 acc
        · have hca : quantColor p ∈ acc := List.mem_of_mem_take hc
          rcases hfind : idxOf? (List.take 256 acc) (quantColor p) with _ | i
          · exact absurd ((idxOf?_eq_none_iff _ _).1 hfind) (by simpa using hc)
          · simp [palStep, hfind, hca]
        · have hfind : idxOf? (List.take 256 acc) (quantColor p) = none :=
            (idxOf?_eq_none_iff _ _).2 hc
          by_cases h256 : (List.take 256 acc).length < 256
          · have hlt : acc.length < 256 := by
              simp only [List.length_take] at h256
              omega
            have htake : List.take 256 acc = acc := List.take_of_length_le (by omega)
            have hca : quantColor p ∉ acc := htake ▸ hc
            rw [palStep, hfind]
            simp only [h256, if_pos, hca, if_neg, if_false]
            rw [htake]
            have hlen2 : (acc ++ [quantColor p]).length ≤ 256 := by
              simp only [List.length_append, List.length_cons, List.length_nil]
              omega
            rw [List.take_of_length_le hlen2]
          · have hge : 256 ≤ acc.length := by
              simp only [List.length_take] at h256
              omega
            rw [palStep, hfind]
            simp only [h256, if_neg, if_false]
            by_cases hca : quantColor p ∈ acc
            · simp [hca]
            · simp only [hca, if_neg, if_false]
              rw [List.take_append_of_le_length hge]
      rw [hstep]
      exact ih (if quantColor p ∈ acc then acc else acc ++ [quantColor p])

/-- Auxiliary: first-seen deduplication keeps its entries distinct. -/
theorem firstSeenAcc_nodup (cs : List RGB) (acc : List RGB) (hacc : acc.Nodup) :
    (firstSeenAcc acc cs).Nodup := by
  induction cs generalizing acc with
  | nil => exact hacc
  | cons c t ih =>
      rw [firstSeenAcc]
      by_cases hc : c ∈ acc
      · simpa [hc] using ih acc hacc
      · refine ih _ ?_
        simp only [hc, if_neg, if_false]
        exact List.nodup_append.2 ⟨hacc, List.nodup_singleton c,
          fun a ha hb => hc (by simpa using (List.mem_singleton.1 hb) ▸ ha)⟩

/-- C4: after quantization of any image the palette has exactly 256 entries:
the distinct quantized colors in first-seen order (at most 256 of them)
followed by (0,0,0) padding entries. -/
theorem palette_exactly_256 (pixels : List RGBA) :
    (quantize pixels).1.length = 256
    ∧ (quantize pixels).1
        = List.take 256 (firstSeen (List.map quantColor pixels))
          ++ List.replicate
              (256 - (List.take 256 (firstSeen (List.map quantColor pixels))).length)
              ((0, 0, 0) : RGB)
    ∧ (firstSeen (List.map quantColor pixels)).Nodup := by
  have hpal : (quantLoop pixels []).1 = List.take 256 (firstSeen (List.map quantColor pixels)) := by
    have := quantLoop_pal_firstSeen pixels []
    simpa [firstSeen] using this
  have hlen : (quantLoop pixels []).1.length ≤ 256 := by
    rw [hpal]
    simp [List.length_take]
  refine ⟨?_, ?_, ?_⟩
  · simp only [quantize, List.length_append, List.length_replicate]
    omega
  · simp only [quantize, hpal]
  · exact firstSeenAcc_nodup _ [] List.nodup_nil

/-- C5: every pixel's channels are quantized independently by
`floor(channel/16)*16` with alpha ignored, palette slots are assigned in
first-seen order, and a quantized color beyond the first 256 distinct ones is
mapped to palette index 0 (the search in the 256-entry first-seen palette
fails and the index defaults to 0). -/
theorem quantizer_per_pixel (pixels : List RGBA) :
    (quantize pixels).2
      = pixels.map (fun p =>
          (idxOf? (List.take 256 (firstSeen (List.map quantColor pixels)))
            (quantColor p)).getD 0)
    ∧ (∀ p : RGBA, ∀ a2 : ℕ, quantColor { p with a := a2 } = quantColor p)
    ∧ (∀ c : ℕ, quantChannel c = c / 16 * 16) := by
  have hpal : (quantLoop pixels []).1 = List.take 256 (firstSeen (List.map quantColor pixels)) := by
    have := quantLoop_pal_firstSeen pixels []
    simpa [firstSeen] using this
  refine ⟨?_, fun p a2 => rfl, fun c => rfl⟩
  have := quantLoop_idx_spec pixels [] (by simp)
  rw [show (quantize pixels).2 = (quantLoop pixels []).2 from rfl, this, hpal]

/-! ## C2: the LZW round-trip

Bottom-up: bit-level lemmas, byte-chunking, sub-block framing, code-width
synchronization between the modelled encoder and the standard decoder, the
main simulation of the decoder against the encoder loop, and finally the
round-trip for the full produced file. -/

/-- Auxiliary: a code is emitted as exactly its width in bits. -/
theorem codeBits_length (v w : ℕ) : (codeBits v w).length = w := by
  induction w generalizing v with
  | zero => rfl
  | succ n ih => simp [codeBits, ih]

/-- Auxiliary: unfolding of the bit-string value on a cons. -/
theorem bitsToNat_cons (b : Bool) (t : List Bool) :
    bitsToNat (b :: t) = (if b then 1 else 0) + 2 * bitsToNat t := rfl

/-- Auxiliary: packing then reading a value below the width bound is lossless. -/
theorem bitsToNat_codeBits (v w : ℕ) (h : v < 2 ^ w) : bitsToNat (codeBits v w) = v := by
  induction w generalizing v with
  | zero =>
      have : v = 0 := by simpa using h
      subst this
      rfl
  | succ n ih =>
      rw [codeBits, bitsToNat_cons]
      have hp : (2 : ℕ) ^ (n + 1) = 2 * 2 ^ n := by ring
      have h2 : v / 2 < 2 ^ n := by omega
      rw [ih (v / 2) h2]
      by_cases hv : v % 2 = 1
      · simp only [hv, decide_true_eq_true]
        simp
        omega
      · simp only [hv, decide_false_eq_false]
        simp
        omega

/-- Auxiliary: zero bits carry value zero. -/
theorem bitsToNat_replicate_false (p : ℕ) : bitsToNat (List.replicate p false) = 0 := by
  induction p with
  | zero => rfl
  | succ n ih => simp [List.replicate_succ, bitsToNat_cons, ih]

/-- Auxiliary: trailing zero padding does not change a bit-string value. -/
theorem bitsToNat_append_replicate (l : List Bool) (p : ℕ) :
    bitsToNat (l ++ List.replicate p false) = bitsToNat l := by
  induction l with
  | nil => simpa using bitsToNat_replicate_false p
  | cons b t ih => simp [bitsToNat_cons, ih]

/-- Auxiliary: a bit string is recovered from its value at its own length. -/
theorem codeBits_bitsToNat (l : List Bool) : codeBits (bitsToNat l) l.length = l := by
  induction l with
  | nil => rfl
  | cons b t ih =>
      rw [List.length_cons, codeBits]
      have hdiv : bitsToNat (b :: t) / 2 = bitsToNat t := by
        cases b <;> simp [bitsToNat_cons] <;> omega
      have hmod : decide (bitsToNat (b :: t) % 2 = 1) = b := by
        cases b <;> simp [bitsToNat_cons] <;> omega
      rw [hdiv, hmod, ih]

/-- Auxiliary: a bit-string value is bounded by its length. -/
theorem bitsToNat_lt (l : List Bool) : bitsToNat l < 2 ^ l.length := by
  induction l with
  | nil => simp [bitsToNat]
  | cons b t ih =>
      rw [bitsToNat_cons, List.length_cons, pow_succ]
      cases b <;> simp <;> omega

/-- Auxiliary: taking a code's width from the stream returns its bits. -/
theorem take_pack (v w : ℕ) (r : List Bool) :
    List.take w (codeBits v w ++ r) = codeBits v w :=
  List.take_left' (codeBits_length v w)

/-- Auxiliary: dropping a code's width from the stream leaves the rest. -/
theorem drop_pack (v w : ℕ) (r : List Bool) :
    List.drop w (codeBits v w ++ r) = r :=
  List.drop_left' (codeBits_length v w)

/-- Auxiliary: reading a final code with a (possibly one bit larger) width out
of the zero-padded stream still returns its value. -/
theorem read_zero_extended (v w w' p : ℕ) (hv : v < 2 ^ w) (hw : w ≤ w') :
    bitsToNat (List.take w' (codeBits v w ++ List.replicate p false)) = v := by
  rw [List.take_append_eq_append_take]
  rw [List.take_of_length_le (by rw [codeBits_length]; exact hw)]
  rw [List.take_replicate]
  rw [bitsToNat_append_replicate]
  exact bitsToNat_codeBits v w hv

/-- Auxiliary: unchunking bytes recovers a bit stream of byte-aligned length. -/
theorem bitsOfBytes_chunk8_aux (n : ℕ) :
    ∀ l : List Bool, l.length ≤ n → 8 ∣ l.length → bitsOfBytes (chunk8 l) = l := by
  induction n with
  | zero =>
      intro l hl _
      have : l = [] := List.eq_nil_of_length_eq_zero (by omega)
      subst this
      simp [chunk8, bitsOfBytes]
  | succ n ih =>
      intro l hl hdvd
      cases l with
      | nil => simp [chunk8, bitsOfBytes]
      | cons b rest =>
          obtain ⟨k, hk⟩ := hdvd
          have hk1 : 1 ≤ k := by
            by_contra hk0
            have : k = 0 := by omega
            rw [this] at hk
            simp at hk
          have h8 : 8 ≤ (b :: rest).length := by omega
          rw [chunk8, bitsOfBytes, List.flatMap_cons]
          have htake : (List.take 8 (b :: rest)).length = 8 := by
            rw [List.length_take]
            omega
          have hbyte : byteBits (bitsToNat (List.take 8 (b :: rest))) = List.take 8 (b :: rest) := by
            have h0 := codeBits_bitsToNat (List.take 8 (b :: rest))
            rw [htake] at h0
            exact h0
          rw [hbyte]
          have hrec : bitsOfBytes (chunk8 (List.drop 8 (b :: rest))) = List.drop 8 (b :: rest) := by
            apply ih
            · rw [List.length_drop]
              simp only [List.length_cons] at hl ⊢
              omega
            · rw [List.length_drop]
              exact ⟨k - 1, by omega⟩
          rw [bitsOfBytes] at hrec
          rw [hrec, List.take_append_drop]

/-- Auxiliary: the padding completes the bit count to a multiple of eight. -/
theorem dvd_padLen (n : ℕ) : 8 ∣ (n + padLen n) := by
  rw [padLen]
  omega

/-- Auxiliary: serializing bits to padded bytes and back appends the zero pad. -/
theorem bitsOfBytes_bytesOfBits (bits : List Bool) :
    bitsOfBytes (bytesOfBits bits) = bits ++ List.replicate (padLen bits.length) false := by
  rw [bytesOfBits]
  apply bitsOfBytes_chunk8_aux (bits ++ List.replicate (padLen bits.length) false).length _ le_rfl
  rw [List.length_append, List.length_replicate]
  exact dvd_padLen _

/-- Auxiliary: undoing the sub-block framing recovers exactly the payload,
ignoring anything after the zero-length terminator. -/
theorem deblock_blockify_aux (n : ℕ) :
    ∀ (bs junk : List ℕ), bs.length ≤ n → deblock (blockify bs ++ junk) = some bs := by
  induction n with
  | zero =>
      intro bs junk hl
      have : bs = [] := List.eq_nil_of_length_eq_zero (by omega)
      subst this
      simp [blockify, deblock]
  | succ n ih =>
      intro bs junk hl
      cases bs with
      | nil => simp [blockify, deblock]
      | cons b rest =>
          rw [blockify]
          rcases hT : (List.take 255 (b :: rest)).length with _ | k
          · rw [List.length_take] at hT
            simp at hT
          · rw [List.cons_append, List.append_assoc, deblock]
            have hge : ¬ ((List.take 255 (b :: rest)
                ++ (blockify (List.drop 255 (b :: rest)) ++ junk)).length < k + 1) := by
              rw [List.length_append, hT]
              omega
            have hrec := ih (List.drop 255 (b :: rest)) junk (by
              rw [List.length_drop]
              simp only [List.length_cons] at hl ⊢
              omega)
            rw [if_neg hge, ← hT, List.drop_left, List.take_left, hrec]
            simp [List.take_append_drop]

/-- Auxiliary: framing round-trip at the top level. -/
theorem deblock_blockify (bs junk : List ℕ) : deblock (blockify bs ++ junk) = some bs :=
  deblock_blockify_aux bs.length bs junk le_rfl

/-! ### Code-width synchronization -/

/-- Auxiliary: the size of a number between consecutive powers of two. -/
theorem size_eq_succ (n k : ℕ) (h1 : 2 ^ k ≤ n) (h2 : n < 2 ^ (k + 1)) : Nat.size n = k + 1 :=
  le_antisymm (Nat.size_le.2 h2) (Nat.lt_size.2 h1)

/-- Auxiliary: 257 has nine bits. -/
theorem size_257 : Nat.size 257 = 9 := size_eq_succ 257 8 (by norm_num) (by norm_num)

/-- Auxiliary: 258 has nine bits. -/
theorem size_258 : Nat.size 258 = 9 := size_eq_succ 258 8 (by norm_num) (by norm_num)

/-- Auxiliary: the encoder width at minimum code size 8. -/
theorem encWidth_eight (L : ℕ) : encWidth 8 L = min 12 (Nat.size (257 + L)) := by
  rw [encWidth]
  norm_num

/-- Auxiliary: the decoder width at minimum code size 8. -/
theorem decWidth_eight (L : ℕ) : decWidth 8 L = min 12 (Nat.size (258 + L)) := by
  rw [decWidth]
  norm_num

/-- Auxiliary: the decoder, one dictionary entry behind the encoder, reads
each data code at exactly the width the encoder emitted it with. -/
theorem encWidth_succ_decWidth (L : ℕ) : encWidth 8 (L + 1) = decWidth 8 L := by
  rw [encWidth_eight, decWidth_eight]
  congr 2
  omega

/-- Auxiliary: encoder widths start at nine bits. -/
theorem encWidth_ge_9 (L : ℕ) : 9 ≤ encWidth 8 L := by
  rw [encWidth_eight]
  have h1 : Nat.size 257 ≤ Nat.size (257 + L) := Nat.size_le_size (by omega)
  rw [size_257] at h1
  omega

/-- Auxiliary: decoder widths start at nine bits. -/
theorem decWidth_ge_9 (L : ℕ) : 9 ≤ decWidth 8 L := by
  rw [decWidth_eight]
  have h1 : Nat.size 258 ≤ Nat.size (258 + L) := Nat.size_le_size (by omega)
  rw [size_258] at h1
  omega

/-- Auxiliary: sizes grow by at most one bit per increment. -/
theorem size_succ_le (n : ℕ) : Nat.size (n + 1) ≤ Nat.size n + 1 := by
  apply Nat.size_le.2
  have h1 : n < 2 ^ Nat.size n := Nat.lt_size_self n
  have h2 : (2 : ℕ) ^ (Nat.size n + 1) = 2 ^ Nat.size n * 2 := pow_succ 2 _
  omega

/-- Auxiliary: at the end code the decoder width matches the final encoder
width or exceeds it by exactly one bit (absorbed by the zero padding). -/
theorem decWidth_endCases (L : ℕ) :
    decWidth 8 L = encWidth 8 L ∨ decWidth 8 L = encWidth 8 L + 1 := by
  rw [encWidth_eight, decWidth_eight]
  have h1 : Nat.size (257 + L) ≤ Nat.size (258 + L) := Nat.size_le_size (by omega)
  have h2 : Nat.size (258 + L) ≤ Nat.size (257 + L) + 1 := by
    have h3 := size_succ_le (257 + L)
    have h4 : 257 + L + 1 = 258 + L := by omega
    rw [h4] at h3
    exact h3
  omega

/-- Auxiliary: every code below the next free code fits in the current width. -/
theorem code_lt_pow (c L : ℕ) (hc : c < 258 + L) (hL : L ≤ 3838) : c < 2 ^ encWidth 8 L := by
  rw [encWidth_eight]
  by_cases h12 : Nat.size (257 + L) ≤ 12
  · rw [min_eq_right h12]
    have h1 := Nat.lt_size_self (257 + L)
    omega
  · rw [min_eq_left (by omega)]
    have h1 : (2 : ℕ) ^ 12 = 4096 := by norm_num
    omega

/-! ### Decoder step lemmas -/

/-- Auxiliary: one unfolding of the decode loop on a nonempty bit stream. -/
theorem decLoop_ne_nil (dtbl : List (List ℕ)) (prev : Option (List ℕ)) (bits : List Bool)
    (acc : List ℕ) (h : bits ≠ []) :
    decLoop 8 dtbl prev bits acc
      = (if bitsToNat (List.take (decWidth 8 dtbl.length) bits) = 2 ^ 8 then
          decLoop 8 [] none (List.drop (decWidth 8 dtbl.length) bits) acc
        else if bitsToNat (List.take (decWidth 8 dtbl.length) bits) = 2 ^ 8 + 1 then
          some acc
        else
          match prev with
          | none =>
              if bitsToNat (List.take (decWidth 8 dtbl.length) bits) < 2 ^ 8 then
                decLoop 8 dtbl (some [bitsToNat (List.take (decWidth 8 dtbl.length) bits)])
                  (List.drop (decWidth 8 dtbl.length) bits)
                  (acc ++ [bitsToNat (List.take (decWidth 8 dtbl.length) bits)])
              else none
          | some p =>
              match decSeq 8 dtbl p (bitsToNat (List.take (decWidth 8 dtbl.length) bits)) with
              | none => none
              | some s =>
                  decLoop 8
                    (if 2 ^ 8 + 2 + dtbl.length < 4096 then dtbl ++ [p ++ [s.headD 0]] else dtbl)
                    (some s)
                    (List.drop (decWidth 8 dtbl.length) bits)
                    (acc ++ s)) := by
  cases bits with
  | nil => exact absurd rfl h
  | cons b bs => rw [decLoop.eq_def]

/-- Auxiliary: the decoder consumes one code of the expected width. -/
theorem decLoop_eat (dtbl : List (List ℕ)) (prev : Option (List ℕ)) (acc : List ℕ)
    (c w : ℕ) (rest : List Bool) (hw : decWidth 8 dtbl.length = w) (hc : c < 2 ^ w) :
    decLoop 8 dtbl prev (codeBits c w ++ rest) acc
      = (if c = 256 then decLoop 8 [] none rest acc
        else if c = 257 then some acc
        else
          match prev with
          | none =>
              if c < 256 then decLoop 8 dtbl (some [c]) rest (acc ++ [c]) else none
          | some p =>
              match decSeq 8 dtbl p c with
              | none => none
              | some s =>
                  decLoop 8
                    (if 258 + dtbl.length < 4096 then dtbl ++ [p ++ [s.headD 0]] else dtbl)
                    (some s) rest (acc ++ s)) := by
  have hw9 : 9 ≤ w := hw ▸ decWidth_ge_9 _
  have hne : codeBits c w ++ rest ≠ [] := by
    intro hcontra
    have hlen : (codeBits c w ++ rest).length = 0 := by rw [hcontra]; rfl
    rw [List.length_append, codeBits_length] at hlen
    omega
  rw [decLoop_ne_nil dtbl prev _ acc hne, hw, take_pack, drop_pack,
    bitsToNat_codeBits c w hc]
  norm_num

/-- Auxiliary: the decoder accepts the end code even when its width bump
exceeds the encoder's final width by one bit, thanks to the zero padding. -/
theorem decLoop_end (dtbl : List (List ℕ)) (prev : Option (List ℕ)) (acc : List ℕ)
    (w pad : ℕ) (hw : decWidth 8 dtbl.length = w ∨ decWidth 8 dtbl.length = w + 1)
    (hw9 : 9 ≤ w) :
    decLoop 8 dtbl prev (codeBits 257 w ++ List.replicate pad false) acc = some acc := by
  have h512 : (257 : ℕ) < 2 ^ w := by
    have h1 : (2 : ℕ) ^ 9 ≤ 2 ^ w := Nat.pow_le_pow_right (by norm_num) hw9
    have h2 : (2 : ℕ) ^ 9 = 512 := by norm_num
    omega
  have hne : codeBits 257 w ++ List.replicate pad false ≠ [] := by
    intro hcontra
    have hlen : (codeBits 257 w ++ List.replicate pad false).length = 0 := by rw [hcontra]; rfl
    rw [List.length_append, codeBits_length] at hlen
    omega
  rw [decLoop_ne_nil dtbl prev _ acc hne]
  have hread : bitsToNat (List.take (decWidth 8 dtbl.length)
      (codeBits 257 w ++ List.replicate pad false)) = 257 := by
    rcases hw with h | h <;> rw [h] <;> exact read_zero_extended 257 w _ pad h512 (by omega)
  rw [hread]
  norm_num

/-- Auxiliary: the initial encoder width is nine bits. -/
theorem encWidth_zero : encWidth 8 0 = 9 := by
  rw [encWidth_eight]
  norm_num [size_257]

/-- Auxiliary: the initial decoder width is nine bits. -/
theorem decWidth_zero : decWidth 8 0 = 9 := by
  rw [decWidth_eight]
  norm_num [size_258]

/-- Auxiliary: a successful list search returns a valid position holding the
searched element. -/
theorem idxOf?_some_spec {α : Type} [DecidableEq α] (l : List α) (c : α) (i : ℕ)
    (h : idxOf? l c = some i) : i < l.length ∧ l[i]? = some c := by
  induction l generalizing i with
  | nil => cases h
  | cons a t ih =>
      rw [idxOf?] at h
      by_cases ha : a = c
      · rw [if_pos ha] at h
        have h0 : i = 0 := by
          injection h with h1
          omega
        subst h0
        exact ⟨by simp, by simp [ha]⟩
      · rw [if_neg ha] at h
        rcases hq : idxOf? t c with _ | j
        · rw [hq] at h
          cases h
        · rw [hq] at h
          simp only [Option.map_some'] at h
          injection h with h
          obtain ⟨h1, h2⟩ := ih j hq
          subst h
          refine ⟨by simp; omega, ?_⟩
          simpa using h2

/-- Auxiliary: the head of a nonempty list survives appending. -/
theorem headD_append (p l : List ℕ) (hp : p ≠ []) (d : ℕ) :
    (p ++ l).headD d = p.headD d := by
  cases p with
  | nil => exact absurd rfl hp
  | cons a t => rfl

/-- Auxiliary: when the encoder finds the code of its current match in a table
that extends the decoder table by exactly the pending entry, the decoder maps
that code back to the same sequence: a single index decodes as a literal, an
older table entry is looked up directly, and the pending entry is recovered by
the first-unassigned-code rule (the match extended by its own first symbol). -/
theorem decSeq_of_lookupC (dtbl : List (List ℕ)) (p m : List ℕ) (cm : ℕ)
    (hp : p ≠ []) (hm : m ≠ []) (hmlt : ∀ x ∈ m, x < 256)
    (hlook : lookupC 8 (dtbl ++ [p ++ [m.headD 0]]) m = some cm) :
    decSeq 8 dtbl p cm = some m ∧ cm ≠ 256 ∧ cm ≠ 257 ∧ cm < 258 + (dtbl.length + 1) := by
  have h256 : (2 : ℕ) ^ 8 = 256 := by norm_num
  cases m with
  | nil => exact absurd rfl hm
  | cons k1 mt =>
      cases mt with
      | nil =>
          simp only [lookupC] at hlook
          injection hlook with hcm
          have hk : k1 < 256 := hmlt k1 (by simp)
          subst hcm
          refine ⟨?_, by omega, by omega, by omega⟩
          simp only [decSeq, h256]
          rw [if_pos (by omega)]
      | cons k2 mtt =>
          simp only [lookupC, List.headD_cons] at hlook
          rcases hq : idxOf? (dtbl ++ [p ++ [k1]]) (k1 :: k2 :: mtt) with _ | i
          · rw [hq] at hlook
            cases hlook
          · rw [hq] at hlook
            simp only [Option.map_some'] at hlook
            injection hlook with hcm
            obtain ⟨hilt, hget⟩ := idxOf?_some_spec _ _ _ hq
            rw [List.length_append, List.length_cons, List.length_nil] at hilt
            by_cases hi2 : i < dtbl.length
            · have hdt : dtbl[i]? = some (k1 :: k2 :: mtt) := by
                rw [List.getElem?_append] at hget
                rwa [if_pos hi2] at hget
              refine ⟨?_, by omega, by omega, by omega⟩
              simp only [decSeq, h256]
              rw [if_neg (by omega)]
              have hsub : cm - (256 + 2) = i := by omega
              rw [if_pos (by omega), hsub]
              exact hdt
            · have hieq : i = dtbl.length := by omega
              subst hieq
              have hE : (dtbl ++ [p ++ [k1]])[dtbl.length]? = some (p ++ [k1]) := by
                rw [List.getElem?_append, if_neg (by omega)]
                simp
              have hme : (k1 :: k2 :: mtt : List ℕ) = p ++ [k1] := by
                rw [hget] at hE
                injection hE
              refine ⟨?_, by omega, by omega, by omega⟩
              simp only [decSeq, h256]
              rw [if_neg (by omega), if_neg (by omega), if_pos (by omega)]
              have hph : p.headD 0 = k1 := by
                have h0 := headD_append p [k1] hp 0
                rw [← hme] at h0
                simpa using h0.symm
              rw [hph, ← hme]

/-- Auxiliary: the decoder, one entry behind the encoder, consumes one data
code emitted for the encoder match `m`: it outputs `m`, inserts the pending
entry, and catches up with the encoder table. -/
theorem dec_data_step (dtbl : List (List ℕ)) (p m : List ℕ) (cm : ℕ) (acc : List ℕ)
    (rest : List Bool)
    (hp : p ≠ []) (hm : m ≠ []) (hmlt : ∀ x ∈ m, x < 256) (hL : dtbl.length + 1 ≤ 3838)
    (hlook : lookupC 8 (dtbl ++ [p ++ [m.headD 0]]) m = some cm) :
    decLoop 8 dtbl (some p) (codeBits cm (encWidth 8 (dtbl.length + 1)) ++ rest) acc
      = decLoop 8 (dtbl ++ [p ++ [m.headD 0]]) (some m) rest (acc ++ m) := by
  obtain ⟨hseq, h256, h257, hlt⟩ := decSeq_of_lookupC dtbl p m cm hp hm hmlt hlook
  rw [decLoop_eat dtbl (some p) acc cm (encWidth 8 (dtbl.length + 1)) rest
    (encWidth_succ_decWidth dtbl.length).symm
    (code_lt_pow cm (dtbl.length + 1) hlt (by omega))]
  rw [if_neg h256, if_neg h257]
  show (match decSeq 8 dtbl p cm with
        | none => none
        | some s =>
            decLoop 8
              (if 258 + dtbl.length < 4096 then dtbl ++ [p ++ [s.headD 0]] else dtbl)
              (some s) rest (acc ++ s))
      = decLoop 8 (dtbl ++ [p ++ [m.headD 0]]) (some m) rest (acc ++ m)
  rw [hseq]
  show decLoop 8 (if 258 + dtbl.length < 4096 then dtbl ++ [p ++ [m.headD 0]] else dtbl)
      (some m) rest (acc ++ m)
    = decLoop 8 (dtbl ++ [p ++ [m.headD 0]]) (some m) rest (acc ++ m)
  rw [if_pos (show 258 + dtbl.length < 4096 by omega)]

/-- Auxiliary: right after a clear the decoder outputs the first (literal)
code without inserting anything. -/
theorem dec_lit_step (acc : List ℕ) (k : ℕ) (rest : List Bool) (hk : k < 256) :
    decLoop 8 [] none (codeBits k 9 ++ rest) acc = decLoop 8 [] (some [k]) rest (acc ++ [k]) := by
  rw [decLoop_eat [] none acc k 9 rest decWidth_zero (by norm_num; omega)]
  rw [if_neg (by omega), if_neg (by omega)]
  show (if k < 256 then decLoop 8 [] (some [k]) rest (acc ++ [k]) else none)
    = decLoop 8 [] (some [k]) rest (acc ++ [k])
  rw [if_pos hk]

/-- Auxiliary: a clear code resets the decoder state. -/
theorem dec_clear_step (dtbl : List (List ℕ)) (prev : Option (List ℕ)) (acc : List ℕ)
    (w : ℕ) (rest : List Bool) (hw : decWidth 8 dtbl.length = w) :
    decLoop 8 dtbl prev (codeBits 256 w ++ rest) acc = decLoop 8 [] none rest acc := by
  have hw9 : 9 ≤ w := hw ▸ decWidth_ge_9 _
  have hc : (256 : ℕ) < 2 ^ w := by
    have h1 : (2 : ℕ) ^ 9 ≤ 2 ^ w := Nat.pow_le_pow_right (by norm_num) hw9
    have h2 : (2 : ℕ) ^ 9 = 512 := by norm_num
    omega
  rw [decLoop_eat dtbl prev acc 256 w rest hw hc]
  rw [if_pos rfl]

/-- Auxiliary: packing a code stream starts with the first code's bits. -/
theorem packBits_cons (cw : ℕ × ℕ) (rest : List (ℕ × ℕ)) :
    packBits (cw :: rest) = codeBits cw.1 cw.2 ++ packBits rest := rfl

/-- Auxiliary: packing an empty code stream gives no bits. -/
theorem packBits_nil : packBits [] = [] := rfl

/-- Auxiliary: the main simulation. The decoder, holding either the fresh
post-clear state or the previous-phrase state one table entry behind the
encoder, consumes the bits of the remaining encoder output and reproduces the
pending match followed by the remaining input. -/
theorem decLoop_encLoop (ks : List ℕ) :
    ∀ (tbl dtbl : List (List ℕ)) (m : List ℕ) (prev : Option (List ℕ))
      (acc : List ℕ) (pad : ℕ),
      (∀ x ∈ ks, x < 256) →
      (∀ x ∈ m, x < 256) →
      tbl.length ≤ 3837 →
      ((tbl = [] ∧ dtbl = [] ∧ prev = none ∧ m.length ≤ 1)
        ∨ (∃ p, prev = some p ∧ p ≠ [] ∧ m ≠ []
            ∧ tbl = dtbl ++ [p ++ [m.headD 0]]
            ∧ (lookupC 8 tbl m).isSome)) →
      decLoop 8 dtbl prev (packBits (encLoop 8 ks tbl m) ++ List.replicate pad false) acc
        = some (acc ++ m ++ ks) := by
  induction ks with
  | nil =>
      intro tbl dtbl m prev acc pad hks hm3 hlen hinv
      rcases hinv with ⟨htbl, hdtbl, hprev, hm1⟩ | ⟨p, hprev, hp, hm, htbl, hlook⟩
      · subst htbl
        subst hdtbl
        subst hprev
        cases m with
        | nil =>
            simp only [encLoop, List.isEmpty_nil, if_true, List.nil_append, packBits_cons,
              packBits_nil, List.append_nil, List.length_nil]
            rw [encWidth_zero, show (2 : ℕ) ^ 8 + 1 = 257 by norm_num]
            rw [decLoop_end [] none acc 9 pad (Or.inl decWidth_zero) (by norm_num)]
        | cons k0 mt =>
            have hmt : mt = [] := by
              simp only [List.length_cons] at hm1
              exact List.eq_nil_of_length_eq_zero (by omega)
            subst hmt
            have hk0 : k0 < 256 := hm3 k0 (by simp)
            simp only [encLoop, List.isEmpty_cons, if_false, Bool.false_eq_true, lookupC,
              Option.getD_some, List.length_nil, packBits_cons, packBits_nil,
              List.append_nil, List.cons_append, List.nil_append]
            rw [encWidth_zero, show (2 : ℕ) ^ 8 + 1 = 257 by norm_num, List.append_assoc]
            rw [dec_lit_step acc k0 _ hk0]
            rw [decLoop_end [] (some [k0]) (acc ++ [k0]) 9 pad (Or.inl decWidth_zero)
              (by norm_num)]
      · subst hprev
        have hiE : m.isEmpty = false := by
          cases m with
          | nil => exact absurd rfl hm
          | cons a t => rfl
        obtain ⟨cm, hcm⟩ := Option.isSome_iff_exists.1 hlook
        have hlen2 : tbl.length = dtbl.length + 1 := by
          rw [htbl]
          simp
        simp only [encLoop, hiE, Bool.false_eq_true, if_false, hcm, Option.getD_some,
          List.cons_append, List.nil_append, packBits_cons, packBits_nil,
          List.append_nil]
        rw [hlen2, show (2 : ℕ) ^ 8 + 1 = 257 by norm_num, List.append_assoc]
        rw [htbl] at hcm
        rw [dec_data_step dtbl p m cm acc _ hp hm hm3 (by omega) hcm]
        rw [decLoop_end (dtbl ++ [p ++ [m.headD 0]]) (some m) (acc ++ m)
          (encWidth 8 (dtbl.length + 1)) pad
          (by
            have h0 := decWidth_endCases (dtbl.length + 1)
            simpa using h0)
          (encWidth_ge_9 _)]
  | cons k ks ih =>
      intro tbl dtbl m prev acc pad hks hm3 hlen hinv
      have hk : k < 256 := hks k (by simp)
      have hks2 : ∀ x ∈ ks, x < 256 := fun x hx => hks x (by simp [hx])
      rcases hinv with ⟨htbl, hdtbl, hprev, hm1⟩ | ⟨p, hprev, hp, hm, htbl, hlook⟩
      · subst htbl
        subst hdtbl
        subst hprev
        cases m with
        | nil =>
            simp only [encLoop, List.isEmpty_nil, if_true]
            rw [ih [] [] [k] none acc pad hks2
              (by intro x hx; simp at hx; omega)
              (by simp) (Or.inl ⟨rfl, rfl, rfl, by simp⟩)]
            simp
        | cons k0 mt =>
            have hmt : mt = [] := by
              simp only [List.length_cons] at hm1
              exact List.eq_nil_of_length_eq_zero (by omega)
            subst hmt
            have hk0 : k0 < 256 := hm3 k0 (by simp)
            have hstep : encLoop 8 (k :: ks) [] [k0]
                = (k0, encWidth 8 0) :: encLoop 8 ks [[k0] ++ [k]] [k] := by
              simp only [encLoop, List.isEmpty_cons, Bool.false_eq_true, if_false,
                List.cons_append, List.nil_append, lookupC, idxOf?, Option.map_none',
                Option.isSome_none, Option.getD_some, List.length_nil]
              norm_num
            rw [hstep]
            simp only [packBits_cons]
            rw [encWidth_zero, List.append_assoc]
            rw [dec_lit_step acc k0 _ hk0]
            rw [ih [[k0] ++ [k]] [] [k] (some [k0]) (acc ++ [k0]) pad hks2
              (by intro x hx; simp at hx; omega)
              (by simp)
              (Or.inr ⟨[k0], rfl, by simp, by simp, by simp, by simp [lookupC]⟩)]
            simp
      · subst hprev
        have hiE : m.isEmpty = false := by
          cases m with
          | nil => exact absurd rfl hm
          | cons a t => rfl
        have hlen2 : tbl.length = dtbl.length + 1 := by
          rw [htbl]
          simp
        by_cases hext : (lookupC 8 tbl (m ++ [k])).isSome = true
        · have hstep : encLoop 8 (k :: ks) tbl m = encLoop 8 ks tbl (m ++ [k]) := by
            simp only [encLoop, hiE, Bool.false_eq_true, if_false, hext, if_true]
          rw [hstep]
          rw [ih tbl dtbl (m ++ [k]) (some p) acc pad hks2
            (by
              intro x hx
              rcases List.mem_append.1 hx with h1 | h1
              · exact hm3 x h1
              · simp at h1
                omega)
            hlen
            (Or.inr ⟨p, rfl, hp, by simp, by rw [headD_append m [k] hm, ← htbl], hext⟩)]
          simp
        · obtain ⟨cm, hcm⟩ := Option.isSome_iff_exists.1 hlook
          have h256 : (2 : ℕ) ^ 8 = 256 := by norm_num
          by_cases hreset : 2 ^ 8 + 2 + (tbl.length + 1) = 4096
          · have hstep : encLoop 8 (k :: ks) tbl m
                = ((lookupC 8 tbl m).getD 0, encWidth 8 tbl.length)
                  :: (2 ^ 8, encWidth 8 (tbl.length + 1)) :: encLoop 8 ks [] [k] := by
              simp only [encLoop, hiE, Bool.false_eq_true, if_false, hext, hreset, if_true]
            rw [hstep, hcm]
            simp only [Option.getD_some, packBits_cons]
            rw [hlen2, List.append_assoc, List.append_assoc]
            rw [htbl] at hcm
            rw [dec_data_step dtbl p m cm acc _ hp hm hm3 (by omega) hcm]
            rw [h256]
            rw [dec_clear_step (dtbl ++ [p ++ [m.headD 0]]) (some m) (acc ++ m)
              (encWidth 8 (dtbl.length + 1 + 1)) _ ?hwclear]
            · rw [ih [] [] [k] none (acc ++ m) pad hks2
                (by intro x hx; simp at hx; omega)
                (by simp) (Or.inl ⟨rfl, rfl, rfl, by simp⟩)]
              simp
            case hwclear =>
              have h0 := encWidth_succ_decWidth (dtbl.length + 1)
              simpa using h0.symm
          · have hstep : encLoop 8 (k :: ks) tbl m
                = ((lookupC 8 tbl m).getD 0, encWidth 8 tbl.length)
                  :: encLoop 8 ks (tbl ++ [m ++ [k]]) [k] := by
              simp only [encLoop, hiE, Bool.false_eq_true, if_false, hext, hreset]
            rw [hstep, hcm]
            simp only [Option.getD_some, packBits_cons]
            rw [hlen2, List.append_assoc]
            rw [htbl] at hcm
            rw [dec_data_step dtbl p m cm acc _ hp hm hm3 (by omega) hcm]
            rw [← htbl]
            rw [ih (tbl ++ [m ++ [k]]) tbl [k] (some m) (acc ++ m) pad hks2
              (by intro x hx; simp at hx; omega)
              (by
                rw [List.length_append]
                simp only [List.length_cons, List.length_nil]
                omega)
              (Or.inr ⟨m, rfl, hm, by simp, by simp, by simp [lookupC]⟩)]
            simp

/-- Auxiliary: every index the quantizer step yields is below 256. -/
theorem palStep_idx_lt (pal : List RGB) (c : RGB) (h : pal.length ≤ 256) :
    (palStep pal c).2 < 256 := by
  rcases hfind : idxOf? pal c with _ | i
  · rw [palStep, hfind]
    by_cases h256 : pal.length < 256
    · simp [h256]
    · simp only [h256, if_neg, if_false]
      omega
  · rw [palStep, hfind]
    obtain ⟨h1, _⟩ := idxOf?_some_spec pal c i hfind
    simp only
    omega

/-- Auxiliary: every index the quantizer yields is below 256. -/
theorem quantLoop_idx_lt (ps : List RGBA) (pal : List RGB) (hlen : pal.length ≤ 256) :
    ∀ x ∈ (quantLoop ps pal).2, x < 256 := by
  induction ps generalizing pal with
  | nil =>
      intro x hx
      simp [quantLoop] at hx
  | cons p t ih =>
      intro x hx
      have hx2 : x ∈ (palStep pal (quantColor p)).2
          :: (quantLoop t (palStep pal (quantColor p)).1).2 := hx
      rcases List.mem_cons.1 hx2 with h1 | h1
      · rw [h1]
        exact palStep_idx_lt pal (quantColor p) hlen
      · exact ih ((palStep pal (quantColor p)).1) (palStep_length_le pal (quantColor p) hlen) x h1

/-- Auxiliary: the quantizer index buffer stays below 256. -/
theorem quantize_idx_lt (pixels : List RGBA) : ∀ x ∈ (quantize pixels).2, x < 256 :=
  quantLoop_idx_lt pixels [] (by simp)

/-- Auxiliary: the padded palette always has exactly 256 entries. -/
theorem quantize_pal_length (pixels : List RGBA) : (quantize pixels).1.length = 256 := by
  have hpal : (quantLoop pixels []).1
      = List.take 256 (firstSeen (List.map quantColor pixels)) := by
    have h0 := quantLoop_pal_firstSeen pixels []
    simpa [firstSeen] using h0
  have hlen : (quantLoop pixels []).1.length ≤ 256 := by
    rw [hpal]
    simp [List.length_take]
  simp only [quantize, List.length_append, List.length_replicate]
  omega

/-- Auxiliary: the global color table is three bytes per palette entry. -/
theorem gctBytes_length (pal : List RGB) : (gctBytes pal).length = 3 * pal.length := by
  induction pal with
  | nil => rfl
  | cons c t ih =>
      rw [gctBytes, List.flatMap_cons]
      rw [gctBytes] at ih
      simp only [List.length_append, List.length_cons]
      rw [ih]
      simp only [List.length_cons, List.length_nil, List.length_map]
      ring

/-- Auxiliary: decoding the image data of any written GIF with a 256-entry
palette recovers the index buffer. -/
theorem decode_gifWrite (w h : ℕ) (pal : List RGB) (idx : List ℕ)
    (hpal : pal.length = 256) (hidx : ∀ x ∈ idx, x < 256) :
    decodeGifImageData (gifWrite w h pal idx) = some idx := by
  have hP : (gifHeaderBytes ++ logicalScreenDescriptor w h ++ gctBytes pal
      ++ graphicsControlExt ++ imageDescriptor w h).length = 799 := by
    simp only [List.length_append, gctBytes_length, hpal]
    rfl
  have hfile : gifWrite w h pal idx
      = (gifHeaderBytes ++ logicalScreenDescriptor w h ++ gctBytes pal
          ++ graphicsControlExt ++ imageDescriptor w h)
        ++ (8 :: (blockify (bytesOfBits (packBits (lzwEncode 8 idx))) ++ [0x3B])) := by
    rw [gifWrite]
    simp [List.append_assoc]
  rw [decodeGifImageData, hfile, List.drop_left' hP]
  show (match deblock (blockify (bytesOfBits (packBits (lzwEncode 8 idx))) ++ [0x3B]) with
        | none => none
        | some payload => decLoop 8 [] none (bitsOfBytes payload) []) = some idx
  rw [deblock_blockify]
  show decLoop 8 [] none (bitsOfBytes (bytesOfBits (packBits (lzwEncode 8 idx)))) [] = some idx
  rw [bitsOfBytes_bytesOfBits]
  rw [lzwEncode]
  simp only [packBits_cons]
  rw [List.append_assoc, encWidth_zero, show (2 : ℕ) ^ 8 = 256 by norm_num]
  rw [dec_clear_step [] none [] 9 _ decWidth_zero]
  rw [decLoop_encLoop idx [] [] [] none [] _ hidx (by simp) (by simp)
    (Or.inl ⟨rfl, rfl, rfl, by simp⟩)]
  simp

/-- C2: decoding the LZW-compressed sub-blocks of the produced GIF with a
standard GIF LZW decoder, using the minCodeSize byte embedded in the file,
reproduces exactly the index buffer the color quantizer produced for the
(resampled) image. -/
theorem lzw_roundtrip (resample : RawImage → ℚ → ℚ → RawImage) (img : RawImage)
    (w h : JSNum) :
    decodeGifImageData (convertImageToGif resample img w h)
      = some (quantize (resampledFrame resample img w h).pixels).2 := by
  rw [convertImageToGif]
  exact decode_gifWrite _ _ _ _ (quantize_pal_length _) (quantize_idx_lt _)
